import Mathlib

/-!
# ParcelTrack: a delivery chain as a singly linked list of hubs

Shallow embedding of `src/parcelTrack.c`.

* A C string is the list of its `char`s before the terminating NUL (`CStr`).
* `int` is a 32-bit two's-complement integer: values are `Int`s, and the result of
  every `int` addition or subtraction is reduced by `wrapInt`.
* A `Hub *` heading an acyclic chain is a `List Hub`: `NULL` is `[]`, and a non-null
  pointer is the pointed hub's data fields followed by the chain its `next` heads.
* A function taking `Hub **head` returns the new value of `*head`.
* Text written by `printf` is collected as a list of lines, one per call (every format
  string of the program ends in a newline).
* `display_bottleneck` is embedded a second time with every pointer read checked, and
  `deleteList`, which frees, over a heap of hubs addressed by number.
-/

namespace ParcelTrack

/-! ## C strings, `int`, formatting -/

/-- A C string: its chars up to, and without, the terminating NUL. -/
abbrev CStr := List Char

/-- One line written to standard output (without its newline). -/
abbrev Line := List Char

/-- Size of the `name` array of a hub (`#define MAX_NAME_LENGTH 100`). -/
def MAX_NAME_LENGTH : Nat := 100

/-- Least value of a 32-bit `int`. -/
def INT_MIN : Int := -2147483648

/-- Greatest value of a 32-bit `int`. -/
def INT_MAX : Int := 2147483647

/-- The integer is representable as an `int`. -/
def isInt (x : Int) : Prop := INT_MIN ≤ x ∧ x ≤ INT_MAX

instance (x : Int) : Decidable (isInt x) := by
  unfold isInt; infer_instance

/-- Reduction of a mathematical integer to the `int` with the same residue modulo `2^32`:
the value an `int` operation stores when its exact result is `x`. -/
def wrapInt (x : Int) : Int := (x + 2147483648) % 4294967296 - 2147483648

/-- Decimal text of an `int`, as `printf` writes it for `%d`. -/
def fmt_d : Int → CStr
  | Int.ofNat m => Nat.toDigits 10 m
  | Int.negSucc m => '-' :: Nat.toDigits 10 (m + 1)

/-- The C library call `snprintf(dst, size, "%s", src)`: at most `size - 1` chars of `src`
are stored (followed by the NUL). -/
def snprintf_s (size : Nat) (src : CStr) : CStr := src.take (size - 1)

/-- The C library call `strstr(haystack, needle)`: the part of `haystack` that starts at the
first occurrence of `needle`, or `none` (the null pointer) when there is no occurrence. -/
def strstr : CStr → CStr → Option CStr
  | [], needle => if needle.isPrefixOf [] then some [] else none
  | c :: cs, needle => if needle.isPrefixOf (c :: cs) then some (c :: cs) else strstr cs needle

/-- The name contains the keyword as a (case-sensitive) substring. -/
def contains (name keyword : CStr) : Prop := keyword <:+: name

/-! ## Data model -/

/-- The data fields of `struct hub`; the `next` link is the list structure of the chain. -/
structure Hub where
  name : CStr
  distance : Int
  hour : Int
deriving DecidableEq

/-- A `Hub *` heading a chain. -/
abbrev Chain := List Hub

/-- A `Hub` held by value: its data fields and its `next` link, the link being given by
the chain it heads. -/
structure HubValue where
  name : CStr
  distance : Int
  hour : Int
  next : Chain
deriving DecidableEq

/-- Dereference `*current`, where `current` points at hub `h` whose `next` heads `next`. -/
def deref (h : Hub) (next : Chain) : HubValue := ⟨h.name, h.distance, h.hour, next⟩

/-! ## Operations -/

/-- Source `is_empty`: `head == NULL`. -/
def is_empty (head : Chain) : Bool := head.isEmpty

/-- Source `insert_at_head`. `malloc_ok` tells whether the allocation succeeded.
Returns the new `*head` and the lines printed. -/
def insert_at_head (malloc_ok : Bool) (head : Chain) (name : CStr) (distance hour : Int) :
    Chain × List Line :=
  if !malloc_ok then
    (head, ["Memory allocation failed".toList])
  else
    (⟨snprintf_s MAX_NAME_LENGTH name, distance, hour⟩ :: head, [])

/-- The loop of `insert_at_tail` together with the final store: starting at a non-null
`current` whose `next` heads `rest`, advance while `current->next` is non-null, then set
`current->next = new_hub`. The result is the chain starting at the initial `current`. -/
def insert_at_tail_link (new_hub : Hub) : Hub → Chain → Chain
  | current, [] => [current, new_hub]
  | current, nxt :: rest => current :: insert_at_tail_link new_hub nxt rest

/-- Source `insert_at_tail`. `malloc_ok` tells whether the allocation succeeded.
Returns the new `*head` and the lines printed. -/
def insert_at_tail (malloc_ok : Bool) (head : Chain) (name : CStr) (distance hour : Int) :
    Chain × List Line :=
  if !malloc_ok then
    (head, ["Memory allocation failed".toList])
  else
    let new_hub : Hub := ⟨snprintf_s MAX_NAME_LENGTH name, distance, hour⟩
    match head with
    | [] => ([new_hub], [])
    | current :: rest => (insert_at_tail_link new_hub current rest, [])

/-- The line `printf("%s - %d km, %dh\n", name, distance, hour)` writes for a hub. -/
def hub_line (h : Hub) : Line :=
  h.name ++ " - ".toList ++ fmt_d h.distance ++ " km, ".toList ++ fmt_d h.hour ++ "h".toList

/-- Source `print_chain`: the lines printed, in the order printed. -/
def print_chain : Chain → List Line
  | [] => []
  | current :: next => hub_line current :: print_chain next

/-- The loop of `total_distance`, from `current` with the running `total`. -/
def total_distance_loop : Chain → Int → Int
  | [], total => total
  | current :: next, total => total_distance_loop next (wrapInt (total + current.distance))

/-- Source `total_distance`. -/
def total_distance (head : Chain) : Int := total_distance_loop head 0

/-- Source `print_chain_reverse`: the recursive call first, then the line of `head`. -/
def print_chain_reverse : Chain → List Line
  | [] => []
  | head :: next => print_chain_reverse next ++ [hub_line head]

/-- The local `not_found` of `search_hub`: `{"None", -1, -1, NULL}`. -/
def not_found : HubValue := ⟨"None".toList, -1, -1, []⟩

/-- Source `search_hub`: the value `*current` of the first hub for which
`strstr(current->name, keyword)` is non-null, or `not_found` when the loop ends. -/
def search_hub : Chain → CStr → HubValue
  | [], _ => not_found
  | current :: next, keyword =>
      if (strstr current.name keyword).isSome then deref current next
      else search_hub next keyword

/-- The line `printf("No match found for keyword: %s\n", keyword)` writes. -/
def no_match_line (keyword : CStr) : Line := "No match found for keyword: ".toList ++ keyword

/-- The loop of `remove_first_match` from `current`: `some c` when a hub was unlinked, `c`
being the chain that now starts where `current` started (`current->next` when `current`
itself was unlinked, which is the store to `*head` or to `previous->next`); `none` when
the loop ended without a match. -/
def remove_first_match_loop : Chain → CStr → Option Chain
  | [], _ => none
  | current :: next, keyword =>
      if (strstr current.name keyword).isSome then some next
      else (remove_first_match_loop next keyword).map (fun c => current :: c)

/-- Source `remove_first_match`: the new `*head` and the lines printed. -/
def remove_first_match (head : Chain) (keyword : CStr) : Chain × List Line :=
  if is_empty head then
    (head, [])
  else
    match remove_first_match_loop head keyword with
    | some c => (c, [])
    | none => (head, [no_match_line keyword])

/-- The locals of `display_bottleneck` that its loop updates. -/
structure Scan where
  max_hours : Int
  bottleneck_start : Option Hub
  bottleneck_end : Option Hub
deriving DecidableEq

/-- The `int` expression `current->next->hour - current->hour`. -/
def hours_spent (current nxt : Hub) : Int := wrapInt (nxt.hour - current.hour)

/-- The loop of `display_bottleneck`, at a non-null `current` whose `next` heads the given
chain: it stops when `current->next` is null. -/
def display_bottleneck_loop : Hub → Chain → Scan → Scan
  | _, [], s => s
  | current, nxt :: rest, s =>
      display_bottleneck_loop nxt rest
        (if hours_spent current nxt > s.max_hours then
          ⟨hours_spent current nxt, some current, some nxt⟩
        else s)

/-- The line `printf("Bottleneck found: %s to %s, Hours spent: %d\n", ...)` writes. -/
def bottleneck_line (start_name end_name : CStr) (hours : Int) : Line :=
  "Bottleneck found: ".toList ++ start_name ++ " to ".toList ++ end_name ++
    ", Hours spent: ".toList ++ fmt_d hours

/-- Source `display_bottleneck`: the lines printed. -/
def display_bottleneck (head : Chain) : List Line :=
  match head with
  | [] => ["Delivery chain is empty.".toList]
  | current :: next =>
      let s := display_bottleneck_loop current next ⟨0, none, none⟩
      match s.bottleneck_start, s.bottleneck_end with
      | some b_start, some b_end => [bottleneck_line b_start.name b_end.name s.max_hours]
      | _, _ => ["No bottleneck found.".toList]

/-! ### `display_bottleneck` with every pointer read checked

The same function once more, now keeping the pointers as pointers: a field read `p->f` is
`none` when `p` is null, and the function yields `none` as soon as one read does. -/

/-- The read `p->hour`: `none` when `p` is null. -/
def read_hour : Chain → Option Int
  | [] => none
  | h :: _ => some h.hour

/-- The read `p->name`: `none` when `p` is null. -/
def read_name : Chain → Option CStr
  | [] => none
  | h :: _ => some h.name

/-- The read `p->next`: `none` when `p` is null. -/
def read_next : Chain → Option Chain
  | [] => none
  | _ :: next => some next

/-- The locals of `display_bottleneck` that its loop updates, the two hubs as pointers. -/
structure ScanPtr where
  max_hours : Int
  bottleneck_start : Chain
  bottleneck_end : Chain
deriving DecidableEq

/-- The loop `while (current && current->next)` of `display_bottleneck` with checked reads.
The test `current &&` is the match on `current`; all else goes through the reads. The
assignment `current = current->next` continues at `rest`, the value `current->next` has. -/
def display_bottleneck_loop_checked : Chain → ScanPtr → Option ScanPtr
  | [], s => some s
  | c :: rest, s => do
      let current := c :: rest
      let nxt ← read_next current
      if is_empty nxt then
        pure s
      else
        let next_hour ← read_hour nxt
        let current_hour ← read_hour current
        let hours := wrapInt (next_hour - current_hour)
        display_bottleneck_loop_checked rest
          (if hours > s.max_hours then ⟨hours, current, nxt⟩ else s)

/-- Source `display_bottleneck` with checked reads: the lines printed, or `none` when a
field of a null pointer is read. -/
def display_bottleneck_checked (head : Chain) : Option (List Line) :=
  if is_empty head then
    some ["Delivery chain is empty.".toList]
  else do
    let s ← display_bottleneck_loop_checked head ⟨0, [], []⟩
    if !is_empty s.bottleneck_start && !is_empty s.bottleneck_end then
      let start_name ← read_name s.bottleneck_start
      let end_name ← read_name s.bottleneck_end
      pure [bottleneck_line start_name end_name s.max_hours]
    else
      pure ["No bottleneck found.".toList]

/-! ### Allocation: `deleteList` on a heap of hubs

Here the hubs live in a heap, addressed by number, and a `Hub *` is an address or null.
A hub that was freed, or never allocated, can be neither read nor freed. -/

/-- The address of a hub. -/
abbrev Addr := Nat

/-- A `Hub *`: `none` is the null pointer. -/
abbrev Ptr := Option Addr

/-- The fields of `struct hub`, the `next` link as a pointer. -/
structure Node where
  name : CStr
  distance : Int
  hour : Int
  next : Ptr
deriving DecidableEq

/-- The heap: cell `a` is `some node` while a hub is allocated at address `a`, and `none`
once it has been freed. -/
abbrev Heap := List (Option Node)

/-- The hub allocated at an address, if any. -/
def heap_read (m : Heap) (a : Addr) : Option Node := (m[a]?).join

/-- The heap after `free` of the hub at an address. -/
def heap_free (m : Heap) (a : Addr) : Heap := m.set a none

/-- How a run ends: normally with a value, by an access to a hub that is not allocated, or
by using up the steps it was given. -/
inductive Outcome (α : Type) where
  | done (v : α)
  | fault
  | out_of_fuel
deriving DecidableEq

/-- The loop of `deleteList`, at most `fuel` iterations: `temp = head; head = head->next;
free(temp);` while `head` is not null. -/
def deleteList_loop : Nat → Heap → Ptr → Outcome Heap
  | _, m, none => .done m
  | 0, _, some _ => .out_of_fuel
  | fuel + 1, m, some temp =>
      match heap_read m temp with
      | none => .fault
      | some node => deleteList_loop fuel (heap_free m temp) node.next

/-- Source `deleteList`: the heap afterwards. Every iteration frees an allocated hub, so one
iteration more than the heap has cells is never reached (`deleteList_ne_out_of_fuel`). The
parameter `head` is passed by value: the caller's pointer is not changed. -/
def deleteList (m : Heap) (head : Ptr) : Outcome Heap := deleteList_loop (m.length + 1) m head

/-- The statements `deleteList(chain); chain = NULL;` of `main`: the heap and the variable
`chain` afterwards. -/
def teardown (m : Heap) (chain : Ptr) : Outcome (Heap × Ptr) :=
  match deleteList m chain with
  | .done m2 => .done (m2, none)
  | .fault => .fault
  | .out_of_fuel => .out_of_fuel

/-- The pointer heads, in the heap, the chain of the given hubs stored at the given
addresses, the last hub having a null `next`. -/
def linked (m : Heap) : Ptr → List Addr → Chain → Bool
  | none, [], [] => true
  | some p, a :: addrs, h :: t =>
      match heap_read m a with
      | some node =>
          p == a && node.name == h.name && node.distance == h.distance &&
            node.hour == h.hour && linked m node.next addrs t
      | none => false
  | _, _, _ => false

/-- Number of allocated hubs of the heap. -/
def live (m : Heap) : Nat := m.countP Option.isSome

/-! ## Call sequences -/

/-- One insertion call with its arguments. -/
inductive InsertCall where
  | at_head (name : CStr) (distance hour : Int)
  | at_tail (name : CStr) (distance hour : Int)
deriving DecidableEq

/-- The `distance` argument of an insertion call. -/
def InsertCall.distance : InsertCall → Int
  | .at_head _ d _ => d
  | .at_tail _ d _ => d

/-- Perform one insertion call whose allocation succeeds. -/
def apply_call (head : Chain) : InsertCall → Chain
  | .at_head n d h => (insert_at_head true head n d h).1
  | .at_tail n d h => (insert_at_tail true head n d h).1

/-- Perform the calls in order, starting from the empty chain. -/
def run_calls (calls : List InsertCall) : Chain := calls.foldl apply_call []

/-- Sum of the `distance` arguments of the calls. -/
def sum_distances (calls : List InsertCall) : Int := (calls.map InsertCall.distance).sum

/-- One call of an operation that can change the chain, with its arguments; for an
insertion, `malloc_ok` tells whether its allocation succeeds. -/
inductive ChainCall where
  | insert_head (malloc_ok : Bool) (name : CStr) (distance hour : Int)
  | insert_tail (malloc_ok : Bool) (name : CStr) (distance hour : Int)
  | remove (keyword : CStr)
deriving DecidableEq

/-- Perform one call on the chain. -/
def apply_chain_call (head : Chain) : ChainCall → Chain
  | .insert_head ok n d h => (insert_at_head ok head n d h).1
  | .insert_tail ok n d h => (insert_at_tail ok head n d h).1
  | .remove k => (remove_first_match head k).1

/-- Perform the calls in order, starting from the empty chain. -/
def run_chain_calls (calls : List ChainCall) : Chain := calls.foldl apply_chain_call []

/-- Two insertions of non-negative distances whose sum exceeds `INT_MAX`. -/
def overflow_calls : List InsertCall :=
  [.at_head "Orlando".toList 2147483647 9, .at_tail "Atlanta".toList 1 14]

/-! ## Specification-side notions and sample inputs -/

instance (name keyword : CStr) : Decidable (contains name keyword) := by
  unfold contains; infer_instance

/-- The hubs of the chain whose name contains the keyword, in head-to-tail order. -/
def matching (head : Chain) (keyword : CStr) : Chain :=
  head.filter (fun h => decide (contains h.name keyword))

/-- Sum of the `distance` fields of the hubs of a chain. -/
def chain_distances (head : Chain) : Int := (head.map Hub.distance).sum

/-- The three insertions of the demonstration in `main`. -/
def demo_calls : List InsertCall :=
  [.at_head "Orlando".toList 0 9, .at_tail "Atlanta".toList 400 14,
    .at_tail "Charlotte".toList 350 17]

/-- The chain built by the three insertions of `main`: Orlando, Atlanta, Charlotte. -/
def demo_chain : Chain :=
  [⟨"Orlando".toList, 0, 9⟩, ⟨"Atlanta".toList, 400, 14⟩, ⟨"Charlotte".toList, 350, 17⟩]

/-- Chain with two hubs containing "lanta": Orlando, Atlanta, Charlotte, Atlanta North. -/
def two_matches_chain : Chain :=
  [⟨"Orlando".toList, 0, 9⟩, ⟨"Atlanta".toList, 400, 14⟩, ⟨"Charlotte".toList, 350, 17⟩,
    ⟨"Atlanta North".toList, 360, 20⟩]

/-- Chain whose greatest gap, 5, occurs twice: hours 9, 14, 17, 22. -/
def tie_chain : Chain :=
  [⟨"Orlando".toList, 0, 9⟩, ⟨"Atlanta".toList, 400, 14⟩, ⟨"Charlotte".toList, 350, 17⟩,
    ⟨"Richmond".toList, 300, 22⟩]

/-- A chain of one hub. -/
def one_hub_chain : Chain := [⟨"Orlando".toList, 0, 9⟩]

/-- Chain whose hours never increase: 17, 14, 14, 9. -/
def falling_chain : Chain :=
  [⟨"Charlotte".toList, 0, 17⟩, ⟨"Atlanta".toList, 350, 14⟩, ⟨"Macon".toList, 130, 14⟩,
    ⟨"Orlando".toList, 600, 9⟩]

/-- Two hubs A, B with hours -1 and 2147483647: the hours rise by 2147483648. -/
def rising_overflow_chain : Chain := [⟨"A".toList, 0, -1⟩, ⟨"B".toList, 10, 2147483647⟩]

/-- Two hubs A, B with hours 1 and -2147483648: the hours fall by 2147483649. -/
def falling_overflow_chain : Chain := [⟨"A".toList, 0, 1⟩, ⟨"B".toList, 10, -2147483648⟩]

/-- A name of 102 chars: 99 times `a`, then "XYZ". -/
def long_name : CStr := List.replicate 99 'a' ++ "XYZ".toList

/-- The heap holding Orlando, Atlanta, Charlotte at addresses 2, 0, 3, and a hub of another
chain at address 1. -/
def demo_heap : Heap :=
  [some ⟨"Atlanta".toList, 400, 14, some 3⟩, some ⟨"Miami".toList, 0, 5, none⟩,
    some ⟨"Orlando".toList, 0, 9, some 0⟩, some ⟨"Charlotte".toList, 350, 17, none⟩]

/-- The heap holding the single hub Orlando at address 0. -/
def one_hub_heap : Heap := [some ⟨"Orlando".toList, 0, 9, none⟩]

/-! ## Arithmetic of `int` -/

theorem wrapInt_of_isInt {x : Int} (h : isInt x) : wrapInt x = x := by
  unfold isInt INT_MIN INT_MAX at h
  unfold wrapInt
  omega

theorem isInt_wrapInt (x : Int) : isInt (wrapInt x) := by
  unfold isInt INT_MIN INT_MAX wrapInt
  omega

theorem wrapInt_wrapInt_add (a b : Int) : wrapInt (wrapInt a + b) = wrapInt (a + b) := by
  unfold wrapInt
  omega

/-! ## Insertion -/

theorem insert_at_tail_link_eq (new_hub current : Hub) (rest : Chain) :
    insert_at_tail_link new_hub current rest = current :: rest ++ [new_hub] := by
  induction rest generalizing current with
  | nil => rfl
  | cons nxt rest ih => simp [insert_at_tail_link, ih]

theorem insert_at_head_ok (head : Chain) (name : CStr) (distance hour : Int) :
    (insert_at_head true head name distance hour).1 =
      ⟨snprintf_s MAX_NAME_LENGTH name, distance, hour⟩ :: head := by
  simp [insert_at_head]

theorem insert_at_tail_ok (head : Chain) (name : CStr) (distance hour : Int) :
    (insert_at_tail true head name distance hour).1 =
      head ++ [⟨snprintf_s MAX_NAME_LENGTH name, distance, hour⟩] := by
  cases head with
  | nil => simp [insert_at_tail]
  | cons current rest => simp [insert_at_tail, insert_at_tail_link_eq]

theorem chain_distances_apply_call (head : Chain) (c : InsertCall) :
    chain_distances (apply_call head c) = chain_distances head + c.distance := by
  cases c with
  | at_head n d h =>
      simp [apply_call, insert_at_head_ok, chain_distances, InsertCall.distance, add_comm]
  | at_tail n d h =>
      simp [apply_call, insert_at_tail_ok, chain_distances, InsertCall.distance]

theorem chain_distances_foldl (calls : List InsertCall) (head : Chain) :
    chain_distances (calls.foldl apply_call head) = chain_distances head + sum_distances calls := by
  induction calls generalizing head with
  | nil => simp [sum_distances]
  | cons c calls ih =>
      simp only [List.foldl_cons, ih, chain_distances_apply_call, sum_distances, List.map_cons,
        List.sum_cons]
      ring

theorem chain_distances_run_calls (calls : List InsertCall) :
    chain_distances (run_calls calls) = sum_distances calls := by
  rw [run_calls, chain_distances_foldl]
  simp [chain_distances]

/-! ## `total_distance` -/

theorem total_distance_loop_wrap (head : Chain) (total : Int) :
    total_distance_loop head (wrapInt total) = wrapInt (total + chain_distances head) := by
  induction head generalizing total with
  | nil => simp [total_distance_loop, chain_distances]
  | cons current next ih =>
      simp only [total_distance_loop, wrapInt_wrapInt_add, ih, chain_distances, List.map_cons,
        List.sum_cons]
      congr 1
      ring

theorem total_distance_eq_wrap (head : Chain) :
    total_distance head = wrapInt (chain_distances head) := by
  have h := total_distance_loop_wrap head 0
  have h0 : wrapInt 0 = 0 := by decide
  rw [h0, zero_add] at h
  exact h

/-- C1, as amended: for every finite sequence of `insert_at_head` / `insert_at_tail` calls
applied to the empty chain (every allocation succeeding) such that the sum of the `distance`
arguments is representable as an `int`, `total_distance` of the resulting chain equals that
sum, whichever end each hub was inserted at; and `total_distance` of the empty chain is 0. -/
theorem total_distance_run_calls (calls : List InsertCall) (h : isInt (sum_distances calls)) :
    total_distance (run_calls calls) = sum_distances calls ∧ total_distance [] = 0 := by
  refine ⟨?_, rfl⟩
  rw [total_distance_eq_wrap, chain_distances_run_calls, wrapInt_of_isInt h]

/-- C1, witness: the three insertions of `main`, whose distances sum to 750. -/
theorem total_distance_run_calls_witness :
    isInt (sum_distances demo_calls) ∧
      (total_distance (run_calls demo_calls) = sum_distances demo_calls ∧
        total_distance [] = 0) :=
  ⟨by decide, total_distance_run_calls demo_calls (by decide)⟩

/-- C1, counterexample: after `insert_at_head("Orlando", 2147483647, 9)` and
`insert_at_tail("Atlanta", 1, 14)` the distance arguments sum to 2147483648, which no `int`
holds; `total_distance` returns -2147483648. -/
theorem total_distance_run_calls_overflow :
    sum_distances overflow_calls = 2147483648 ∧
      total_distance (run_calls overflow_calls) = -2147483648 ∧
      total_distance (run_calls overflow_calls) ≠ sum_distances overflow_calls := by
  decide

/-! ## Printing -/

/-- C2: for every chain, the lines `print_chain_reverse` writes are the lines `print_chain`
writes, in reverse order; the empty chain gives no line either way. -/
theorem print_chain_reverse_eq_reverse (head : Chain) :
    print_chain_reverse head = (print_chain head).reverse ∧
      print_chain [] = [] ∧ print_chain_reverse [] = [] := by
  refine ⟨?_, rfl, rfl⟩
  induction head with
  | nil => rfl
  | cons current next ih => simp [print_chain_reverse, print_chain, ih]

/-! ## Substring search -/

theorem strstr_isSome_iff (name keyword : CStr) :
    (strstr name keyword).isSome = true ↔ contains name keyword := by
  unfold contains
  induction name with
  | nil => cases keyword <;> simp [strstr]
  | cons c cs ih =>
      rw [List.infix_cons_iff, ← ih]
      by_cases hp : keyword <+: c :: cs
      · simp [strstr, hp]
      · simp [strstr, hp]

theorem matching_eq_nil_iff (head : Chain) (keyword : CStr) :
    matching head keyword = [] ↔ ∀ h ∈ head, ¬ contains h.name keyword := by
  simp [matching]

theorem matching_append (a b : Chain) (keyword : CStr) :
    matching (a ++ b) keyword = matching a keyword ++ matching b keyword := by
  simp [matching]

theorem matching_cons_of_contains {cur : Hub} {keyword : CStr} (h : contains cur.name keyword)
    (rest : Chain) : matching (cur :: rest) keyword = cur :: matching rest keyword := by
  simp [matching, h]

/-- A chain with a matching hub splits at its first matching hub. -/
theorem exists_first_match (head : Chain) (keyword : CStr)
    (h : ∃ hub ∈ head, contains hub.name keyword) :
    ∃ pre cur post, head = pre ++ cur :: post ∧ (∀ p ∈ pre, ¬ contains p.name keyword) ∧
      contains cur.name keyword := by
  induction head with
  | nil => simp at h
  | cons x xs ih =>
      by_cases hx : contains x.name keyword
      · exact ⟨[], x, xs, rfl, by simp, hx⟩
      · have h2 : ∃ hub ∈ xs, contains hub.name keyword := by
          obtain ⟨hub, hmem, hc⟩ := h
          rcases List.mem_cons.mp hmem with heq | hin
          · exact absurd (heq ▸ hc) hx
          · exact ⟨hub, hin, hc⟩
        obtain ⟨pre, cur, post, he, hpre, hcur⟩ := ih h2
        refine ⟨x :: pre, cur, post, by simp [he], ?_, hcur⟩
        intro p hp
        rcases List.mem_cons.mp hp with heq | hin
        · exact heq ▸ hx
        · exact hpre p hin

/-! ## `search_hub` -/

theorem search_hub_skip (pre rest : Chain) (keyword : CStr)
    (hpre : ∀ p ∈ pre, ¬ contains p.name keyword) :
    search_hub (pre ++ rest) keyword = search_hub rest keyword := by
  induction pre with
  | nil => rfl
  | cons x xs ih =>
      have hx : ¬ (strstr x.name keyword).isSome = true := by
        rw [strstr_isSome_iff]; exact hpre x (by simp)
      simp only [List.cons_append, search_hub, hx, if_false]
      exact ih (fun p hp => hpre p (by simp [hp]))

theorem search_hub_cons_of_contains (cur : Hub) (post : Chain) (keyword : CStr)
    (hcur : contains cur.name keyword) : search_hub (cur :: post) keyword = deref cur post := by
  have hx : (strstr cur.name keyword).isSome = true := (strstr_isSome_iff _ _).mpr hcur
  simp [search_hub, hx]

theorem search_hub_of_no_match (head : Chain) (keyword : CStr)
    (hno : ∀ h ∈ head, ¬ contains h.name keyword) : search_hub head keyword = not_found := by
  have h := search_hub_skip head [] keyword hno
  simpa [search_hub] using h

theorem search_hub_at_first_match (pre : Chain) (cur : Hub) (post : Chain) (keyword : CStr)
    (hpre : ∀ p ∈ pre, ¬ contains p.name keyword) (hcur : contains cur.name keyword) :
    search_hub (pre ++ cur :: post) keyword = deref cur post := by
  rw [search_hub_skip pre _ keyword hpre, search_hub_cons_of_contains cur post keyword hcur]

/-! ## `remove_first_match` -/

theorem remove_first_match_loop_of_no_match (head : Chain) (keyword : CStr)
    (hno : ∀ h ∈ head, ¬ contains h.name keyword) :
    remove_first_match_loop head keyword = none := by
  induction head with
  | nil => rfl
  | cons x xs ih =>
      have hx : ¬ (strstr x.name keyword).isSome = true := by
        rw [strstr_isSome_iff]; exact hno x (by simp)
      simp [remove_first_match_loop, hx, ih (fun p hp => hno p (by simp [hp]))]

theorem remove_first_match_loop_at_first_match (pre : Chain) (cur : Hub) (post : Chain)
    (keyword : CStr) (hpre : ∀ p ∈ pre, ¬ contains p.name keyword)
    (hcur : contains cur.name keyword) :
    remove_first_match_loop (pre ++ cur :: post) keyword = some (pre ++ post) := by
  induction pre with
  | nil =>
      have hx : (strstr cur.name keyword).isSome = true := (strstr_isSome_iff _ _).mpr hcur
      simp [remove_first_match_loop, hx]
  | cons x xs ih =>
      have hx : ¬ (strstr x.name keyword).isSome = true := by
        rw [strstr_isSome_iff]; exact hpre x (by simp)
      simp [remove_first_match_loop, hx, ih (fun p hp => hpre p (by simp [hp]))]

theorem remove_first_match_at_first_match (pre : Chain) (cur : Hub) (post : Chain)
    (keyword : CStr) (hpre : ∀ p ∈ pre, ¬ contains p.name keyword)
    (hcur : contains cur.name keyword) :
    remove_first_match (pre ++ cur :: post) keyword = (pre ++ post, []) := by
  have hne : is_empty (pre ++ cur :: post) = false := by simp [is_empty]
  simp [remove_first_match, hne,
    remove_first_match_loop_at_first_match pre cur post keyword hpre hcur]

theorem remove_first_match_of_no_match (head : Chain) (keyword : CStr)
    (hno : ∀ h ∈ head, ¬ contains h.name keyword) :
    remove_first_match head keyword =
      (head, if head = [] then [] else [no_match_line keyword]) := by
  cases head with
  | nil => simp [remove_first_match, is_empty]
  | cons x xs =>
      simp [remove_first_match, is_empty, remove_first_match_loop_of_no_match _ keyword hno]

/-- C3: when some hub's name contains the keyword, `remove_first_match` yields the chain
with exactly the first matching hub deleted: the chain is `pre ++ cur :: post` with no match
in `pre` and `cur` matching, and the result is `pre ++ post`. When the head matches, the
result is the chain after the head; when the chain is that single hub, the result is empty. -/
theorem remove_first_match_removes_first (head : Chain) (keyword : CStr)
    (h : ∃ hub ∈ head, contains hub.name keyword) :
    (∃ pre cur post, head = pre ++ cur :: post ∧ (∀ p ∈ pre, ¬ contains p.name keyword) ∧
        contains cur.name keyword ∧ (remove_first_match head keyword).1 = pre ++ post) ∧
      (∀ cur post, head = cur :: post → contains cur.name keyword →
        (remove_first_match head keyword).1 = post) ∧
      (∀ cur, head = [cur] → (remove_first_match head keyword).1 = []) := by
  refine ⟨?_, ?_, ?_⟩
  · obtain ⟨pre, cur, post, he, hpre, hcur⟩ := exists_first_match head keyword h
    refine ⟨pre, cur, post, he, hpre, hcur, ?_⟩
    rw [he, remove_first_match_at_first_match pre cur post keyword hpre hcur]
  · intro cur post he hcur
    have := remove_first_match_at_first_match [] cur post keyword (by simp) hcur
    rw [he]
    simpa using congrArg Prod.fst this
  · intro cur he
    have hcur : contains cur.name keyword := by
      obtain ⟨hub, hmem, hc⟩ := h
      rw [he] at hmem
      rw [List.mem_singleton] at hmem
      exact hmem ▸ hc
    have := remove_first_match_at_first_match [] cur [] keyword (by simp) hcur
    rw [he]
    simpa using congrArg Prod.fst this

/-- C3, witness: removing the first match for "lanta" from Orlando, Atlanta, Charlotte. -/
theorem remove_first_match_removes_first_witness :
    (∃ hub ∈ demo_chain, contains hub.name "lanta".toList) ∧
      ∃ pre cur post, demo_chain = pre ++ cur :: post ∧
        (∀ p ∈ pre, ¬ contains p.name "lanta".toList) ∧ contains cur.name "lanta".toList ∧
        (remove_first_match demo_chain "lanta".toList).1 = pre ++ post :=
  ⟨by decide, (remove_first_match_removes_first demo_chain "lanta".toList (by decide)).1⟩

/-- C4: when no hub's name contains the keyword, `remove_first_match` leaves the chain as it
was: the same hubs in the same order, hence the same `total_distance`, the same length and
the same `print_chain` lines. -/
theorem remove_first_match_no_match_unchanged (head : Chain) (keyword : CStr)
    (hno : ∀ h ∈ head, ¬ contains h.name keyword) :
    (remove_first_match head keyword).1 = head ∧
      total_distance (remove_first_match head keyword).1 = total_distance head ∧
      (remove_first_match head keyword).1.length = head.length ∧
      print_chain (remove_first_match head keyword).1 = print_chain head := by
  have he : (remove_first_match head keyword).1 = head := by
    rw [remove_first_match_of_no_match head keyword hno]
  rw [he]
  exact ⟨rfl, rfl, rfl, rfl⟩

/-- C4, witness: no hub of Orlando, Atlanta, Charlotte contains "Miami". -/
theorem remove_first_match_no_match_unchanged_witness :
    (∀ h ∈ demo_chain, ¬ contains h.name "Miami".toList) ∧
      ((remove_first_match demo_chain "Miami".toList).1 = demo_chain ∧
        total_distance (remove_first_match demo_chain "Miami".toList).1 =
          total_distance demo_chain ∧
        (remove_first_match demo_chain "Miami".toList).1.length = demo_chain.length ∧
        print_chain (remove_first_match demo_chain "Miami".toList).1 = print_chain demo_chain) :=
  ⟨by decide, remove_first_match_no_match_unchanged demo_chain "Miami".toList (by decide)⟩

/-- C5, as amended: `remove_first_match` prints the line "No match found for keyword: ..."
(and nothing else) exactly when the chain is non-empty and no hub's name contains the
keyword; on the empty chain, and whenever a match exists, it prints nothing. -/
theorem remove_first_match_output (head : Chain) (keyword : CStr) :
    (remove_first_match head keyword).2 =
      if head ≠ [] ∧ ∀ h ∈ head, ¬ contains h.name keyword then [no_match_line keyword]
      else [] := by
  by_cases hno : ∀ h ∈ head, ¬ contains h.name keyword
  · rw [remove_first_match_of_no_match head keyword hno]
    by_cases hnil : head = []
    · simp [hnil]
    · have hc : head ≠ [] ∧ ∀ h ∈ head, ¬ contains h.name keyword := ⟨hnil, hno⟩
      rw [if_pos hc, if_neg hnil]
  · have hex : ∃ hub ∈ head, contains hub.name keyword := by
      by_contra hcon
      exact hno (fun h hm hc => hcon ⟨h, hm, hc⟩)
    obtain ⟨pre, cur, post, he, hpre, hcur⟩ := exists_first_match head keyword hex
    rw [if_neg (fun hc => hno hc.2), he,
      remove_first_match_at_first_match pre cur post keyword hpre hcur]

/-- C5, counterexample: on the empty chain no hub's name contains "lanta", and
`remove_first_match` returns at its emptiness test without printing the report. -/
theorem remove_first_match_empty_prints_nothing :
    (∀ h ∈ ([] : Chain), ¬ contains h.name "lanta".toList) ∧
      (remove_first_match [] "lanta".toList).2 = [] ∧
      no_match_line "lanta".toList ∉ (remove_first_match [] "lanta".toList).2 := by
  decide

/-- C6: `search_hub` run on the chain `remove_first_match` leaves never returns the removed
hub. When the original chain has at least two hubs containing the keyword, it is
`pre ++ a :: (mid ++ b :: post)` with `a`, `b` its first two such hubs; `a` is removed and
the search returns the value of `b` (whose `next` heads `post`), which differs from the value
`a` had. When the original chain has at most one such hub the search returns `not_found`. -/
theorem search_hub_after_remove (head : Chain) (keyword : CStr) :
    (2 ≤ (matching head keyword).length →
      ∃ pre a mid b post, head = pre ++ a :: (mid ++ b :: post) ∧
        (∀ p ∈ pre, ¬ contains p.name keyword) ∧ contains a.name keyword ∧
        (∀ p ∈ mid, ¬ contains p.name keyword) ∧ contains b.name keyword ∧
        (remove_first_match head keyword).1 = pre ++ (mid ++ b :: post) ∧
        search_hub (remove_first_match head keyword).1 keyword = deref b post ∧
        deref b post ≠ deref a (mid ++ b :: post)) ∧
      ((matching head keyword).length ≤ 1 →
        search_hub (remove_first_match head keyword).1 keyword = not_found) := by
  by_cases hno : ∀ h ∈ head, ¬ contains h.name keyword
  · have hm : matching head keyword = [] := (matching_eq_nil_iff head keyword).mpr hno
    refine ⟨fun h2 => ?_, fun _ => ?_⟩
    · rw [hm] at h2
      simp at h2
    · rw [remove_first_match_of_no_match head keyword hno]
      exact search_hub_of_no_match head keyword hno
  · have hex : ∃ hub ∈ head, contains hub.name keyword := by
      by_contra hcon
      exact hno (fun h hm hc => hcon ⟨h, hm, hc⟩)
    obtain ⟨pre, a, rest, he, hpre, ha⟩ := exists_first_match head keyword hex
    have hmpre : matching pre keyword = [] := (matching_eq_nil_iff pre keyword).mpr hpre
    have hm : matching head keyword = a :: matching rest keyword := by
      rw [he, matching_append, hmpre, List.nil_append, matching_cons_of_contains ha]
    have hrm : (remove_first_match head keyword).1 = pre ++ rest := by
      rw [he, remove_first_match_at_first_match pre a rest keyword hpre ha]
    refine ⟨fun h2 => ?_, fun h1 => ?_⟩
    · have hrest : ∃ hub ∈ rest, contains hub.name keyword := by
        by_contra hcon
        have : matching rest keyword = [] :=
          (matching_eq_nil_iff rest keyword).mpr (fun h hmem hc => hcon ⟨h, hmem, hc⟩)
        rw [hm, this] at h2
        simp at h2
      obtain ⟨mid, b, post, her, hmid, hb⟩ := exists_first_match rest keyword hrest
      refine ⟨pre, a, mid, b, post, by rw [he, her], hpre, ha, hmid, hb, by rw [hrm, her], ?_, ?_⟩
      · rw [hrm, her, search_hub_skip pre _ keyword hpre,
          search_hub_at_first_match mid b post keyword hmid hb]
      · intro heq
        have hlen := congrArg (fun v => v.next.length) heq
        simp [deref] at hlen
        omega
    · have hrest : ∀ h ∈ rest, ¬ contains h.name keyword := by
        rw [hm] at h1
        have : matching rest keyword = [] := by
          cases hmr : matching rest keyword with
          | nil => rfl
          | cons x xs => rw [hmr] at h1; simp at h1
        exact (matching_eq_nil_iff rest keyword).mp this
      rw [hrm]
      apply search_hub_of_no_match
      intro h hmem
      rcases List.mem_append.mp hmem with hin | hin
      · exact hpre h hin
      · exact hrest h hin

/-- C6, witness: with two hubs containing "lanta" the search after the removal returns the
second one; with one such hub (Orlando, Atlanta, Charlotte) it returns `not_found`. -/
theorem search_hub_after_remove_witness :
    (2 ≤ (matching two_matches_chain "lanta".toList).length ∧
      ∃ pre a mid b post, two_matches_chain = pre ++ a :: (mid ++ b :: post) ∧
        (∀ p ∈ pre, ¬ contains p.name "lanta".toList) ∧ contains a.name "lanta".toList ∧
        (∀ p ∈ mid, ¬ contains p.name "lanta".toList) ∧ contains b.name "lanta".toList ∧
        (remove_first_match two_matches_chain "lanta".toList).1 = pre ++ (mid ++ b :: post) ∧
        search_hub (remove_first_match two_matches_chain "lanta".toList).1 "lanta".toList =
          deref b post ∧
        deref b post ≠ deref a (mid ++ b :: post)) ∧
    ((matching demo_chain "lanta".toList).length ≤ 1 ∧
      search_hub (remove_first_match demo_chain "lanta".toList).1 "lanta".toList = not_found) :=
  ⟨⟨by decide, (search_hub_after_remove two_matches_chain "lanta".toList).1 (by decide)⟩,
    ⟨by decide, (search_hub_after_remove demo_chain "lanta".toList).2 (by decide)⟩⟩

/-- C7: when some hub's name contains the keyword, `search_hub` returns a copy of the name,
distance and hour (and `next` link) of the first such hub in head-to-tail order: the chain
is `pre ++ cur :: post` with no match in `pre` and `cur` matching, and the result holds the
fields of `cur`. The function only reads the chain: its result is the returned value alone. -/
theorem search_hub_returns_first_match (head : Chain) (keyword : CStr)
    (h : ∃ hub ∈ head, contains hub.name keyword) :
    ∃ pre cur post, head = pre ++ cur :: post ∧ (∀ p ∈ pre, ¬ contains p.name keyword) ∧
      contains cur.name keyword ∧
      search_hub head keyword = ⟨cur.name, cur.distance, cur.hour, post⟩ := by
  obtain ⟨pre, cur, post, he, hpre, hcur⟩ := exists_first_match head keyword h
  refine ⟨pre, cur, post, he, hpre, hcur, ?_⟩
  rw [he, search_hub_at_first_match pre cur post keyword hpre hcur]
  rfl

/-- C7, witness: searching "lanta" in Orlando, Atlanta, Charlotte. -/
theorem search_hub_returns_first_match_witness :
    (∃ hub ∈ demo_chain, contains hub.name "lanta".toList) ∧
      ∃ pre cur post, demo_chain = pre ++ cur :: post ∧
        (∀ p ∈ pre, ¬ contains p.name "lanta".toList) ∧ contains cur.name "lanta".toList ∧
        search_hub demo_chain "lanta".toList = ⟨cur.name, cur.distance, cur.hour, post⟩ :=
  ⟨by decide, search_hub_returns_first_match demo_chain "lanta".toList (by decide)⟩

/-- C8, as amended: when some hub's name contains the keyword, `search_hub` returns a value
equal to `not_found` exactly when the first such hub is the last hub of the chain and is
named "None" with distance -1 and hour -1; in particular the result differs from `not_found`
whenever every hub has a non-negative distance, whatever the hubs are named. -/
theorem search_hub_eq_not_found_iff (head : Chain) (keyword : CStr)
    (h : ∃ hub ∈ head, contains hub.name keyword) :
    (search_hub head keyword = not_found ↔
        ∃ pre, head = pre ++ [⟨"None".toList, -1, -1⟩] ∧
          ∀ p ∈ pre, ¬ contains p.name keyword) ∧
      ((∀ hub ∈ head, 0 ≤ hub.distance) → search_hub head keyword ≠ not_found) := by
  obtain ⟨pre, cur, post, he, hpre, hcur⟩ := exists_first_match head keyword h
  have hs : search_hub head keyword = deref cur post := by
    rw [he, search_hub_at_first_match pre cur post keyword hpre hcur]
  refine ⟨⟨fun heq => ?_, fun hex => ?_⟩, fun hdist heq => ?_⟩
  · rw [hs] at heq
    simp only [deref, not_found, HubValue.mk.injEq] at heq
    obtain ⟨hn, hd, hh, hp⟩ := heq
    refine ⟨pre, ?_, hpre⟩
    rw [he, hp]
    congr 2
    cases cur
    simp_all
  · obtain ⟨pre2, he2, hpre2⟩ := hex
    have hlast : contains (⟨"None".toList, -1, -1⟩ : Hub).name keyword := by
      obtain ⟨hub, hmem, hc⟩ := h
      rw [he2] at hmem
      rcases List.mem_append.mp hmem with hin | hin
      · exact absurd hc (hpre2 hub hin)
      · rw [List.mem_singleton] at hin
        exact hin ▸ hc
    rw [he2, search_hub_at_first_match pre2 _ [] keyword hpre2 hlast]
    rfl
  · rw [hs] at heq
    simp only [deref, not_found, HubValue.mk.injEq] at heq
    have := hdist cur (by rw [he]; simp)
    omega

/-- C8, witness: "lanta" in Orlando, Atlanta, Charlotte, all of non-negative distance. -/
theorem search_hub_eq_not_found_iff_witness :
    (∃ hub ∈ demo_chain, contains hub.name "lanta".toList) ∧
      (∀ hub ∈ demo_chain, 0 ≤ hub.distance) ∧
      search_hub demo_chain "lanta".toList ≠ not_found :=
  ⟨by decide, by decide,
    (search_hub_eq_not_found_iff demo_chain "lanta".toList (by decide)).2 (by decide)⟩

/-- C8, counterexample: after `insert_at_tail("None", -1, -1)` on the empty chain the hub's
name contains the keyword "None", and `search_hub` returns a value equal to `not_found`. -/
theorem search_hub_found_equals_not_found :
    (insert_at_tail true [] "None".toList (-1) (-1)).1 = [⟨"None".toList, -1, -1⟩] ∧
      (∃ hub ∈ ([⟨"None".toList, -1, -1⟩] : Chain), contains hub.name "None".toList) ∧
      search_hub [⟨"None".toList, -1, -1⟩] "None".toList = not_found := by
  decide

/-- C9: when no hub's name contains the keyword (in particular on the empty chain),
`search_hub` returns the sentinel: name "None", distance -1, hour -1, null `next`. -/
theorem search_hub_no_match_sentinel (head : Chain) (keyword : CStr)
    (hno : ∀ h ∈ head, ¬ contains h.name keyword) :
    search_hub head keyword = ⟨"None".toList, -1, -1, []⟩ :=
  search_hub_of_no_match head keyword hno

/-- C9, witness: no hub of Orlando, Atlanta, Charlotte contains "Miami". -/
theorem search_hub_no_match_sentinel_witness :
    (∀ h ∈ demo_chain, ¬ contains h.name "Miami".toList) ∧
      search_hub demo_chain "Miami".toList = ⟨"None".toList, -1, -1, []⟩ :=
  ⟨by decide, search_hub_no_match_sentinel demo_chain "Miami".toList (by decide)⟩

/-! ## `display_bottleneck` -/

/-- Whenever the exact difference of the hours is representable as an `int`, the `int`
subtraction of the loop yields it. -/
theorem hours_spent_eq_sub (current nxt : Hub) (h : isInt (nxt.hour - current.hour)) :
    hours_spent current nxt = nxt.hour - current.hour :=
  wrapInt_of_isInt h

/-- Hours in the documented range 0..23 have representable differences. -/
theorem hours_spent_eq_sub_of_day_hours (current nxt : Hub)
    (hc : 0 ≤ current.hour ∧ current.hour ≤ 23) (hn : 0 ≤ nxt.hour ∧ nxt.hour ≤ 23) :
    hours_spent current nxt = nxt.hour - current.hour := by
  apply hours_spent_eq_sub
  unfold isInt INT_MIN INT_MAX
  omega

/-- What the loop of `display_bottleneck` computes from `current` with locals `s`: either no
consecutive pair has a gap above `s.max_hours` and the locals are unchanged, or the locals
hold the first pair, among the pairs of greatest gap, and that gap, which is above
`s.max_hours`. -/
theorem display_bottleneck_loop_spec (current : Hub) (rest : Chain) (s : Scan) :
    ((∀ j c d, (current :: rest)[j]? = some c → (current :: rest)[j + 1]? = some d →
          hours_spent c d ≤ s.max_hours) ∧
        display_bottleneck_loop current rest s = s) ∨
      ∃ i a b, (current :: rest)[i]? = some a ∧ (current :: rest)[i + 1]? = some b ∧
        display_bottleneck_loop current rest s = ⟨hours_spent a b, some a, some b⟩ ∧
        s.max_hours < hours_spent a b ∧
        (∀ j c d, (current :: rest)[j]? = some c → (current :: rest)[j + 1]? = some d →
          hours_spent c d ≤ hours_spent a b) ∧
        (∀ j c d, j < i → (current :: rest)[j]? = some c → (current :: rest)[j + 1]? = some d →
          hours_spent c d < hours_spent a b) := by
  induction rest generalizing current s with
  | nil =>
      left
      refine ⟨?_, rfl⟩
      intro j c d _ hd
      simp at hd
  | cons nxt rest ih =>
      by_cases hgt : hours_spent current nxt > s.max_hours
      · have hstep : display_bottleneck_loop current (nxt :: rest) s =
            display_bottleneck_loop nxt rest ⟨hours_spent current nxt, some current, some nxt⟩ := by
          simp [display_bottleneck_loop, hgt]
        rcases ih nxt ⟨hours_spent current nxt, some current, some nxt⟩ with
          ⟨hall, hres⟩ | ⟨i, a, b, hia, hib, hres, hlt, hmax, hfirst⟩
        · right
          refine ⟨0, current, nxt, rfl, by simp, by rw [hstep, hres], hgt, ?_, ?_⟩
          · intro j c d hc hd
            cases j with
            | zero =>
                simp at hc hd
                subst hc; subst hd
                exact le_refl _
            | succ j =>
                rw [List.getElem?_cons_succ] at hc hd
                exact hall j c d hc hd
          · intro j c d hj
            omega
        · right
          refine ⟨i + 1, a, b, by simpa using hia, by simpa using hib, by rw [hstep, hres],
            lt_trans hgt hlt, ?_, ?_⟩
          · intro j c d hc hd
            cases j with
            | zero =>
                simp at hc hd
                subst hc; subst hd
                exact le_of_lt hlt
            | succ j =>
                rw [List.getElem?_cons_succ] at hc hd
                exact hmax j c d hc hd
          · intro j c d hj hc hd
            cases j with
            | zero =>
                simp at hc hd
                subst hc; subst hd
                exact hlt
            | succ j =>
                rw [List.getElem?_cons_succ] at hc hd
                exact hfirst j c d (by omega) hc hd
      · have hstep : display_bottleneck_loop current (nxt :: rest) s =
            display_bottleneck_loop nxt rest s := by
          simp [display_bottleneck_loop, hgt]
        have hle : hours_spent current nxt ≤ s.max_hours := not_lt.mp hgt
        rcases ih nxt s with ⟨hall, hres⟩ | ⟨i, a, b, hia, hib, hres, hlt, hmax, hfirst⟩
        · left
          refine ⟨?_, by rw [hstep, hres]⟩
          intro j c d hc hd
          cases j with
          | zero =>
              simp at hc hd
              subst hc; subst hd
              exact hle
          | succ j =>
              rw [List.getElem?_cons_succ] at hc hd
              exact hall j c d hc hd
        · right
          refine ⟨i + 1, a, b, by simpa using hia, by simpa using hib, by rw [hstep, hres],
            hlt, ?_, ?_⟩
          · intro j c d hc hd
            cases j with
            | zero =>
                simp at hc hd
                subst hc; subst hd
                exact le_of_lt (lt_of_le_of_lt hle hlt)
            | succ j =>
                rw [List.getElem?_cons_succ] at hc hd
                exact hmax j c d hc hd
          · intro j c d hj hc hd
            cases j with
            | zero =>
                simp at hc hd
                subst hc; subst hd
                exact lt_of_le_of_lt hle hlt
            | succ j =>
                rw [List.getElem?_cons_succ] at hc hd
                exact hfirst j c d (by omega) hc hd

/-- In terms of the values `hours_spent` the loop computes: when some consecutive pair has a
positive `hours_spent`, `display_bottleneck` prints the line of the first pair among those
of greatest `hours_spent`. -/
theorem display_bottleneck_first_max_of_hours_spent (head : Chain)
    (h : ∃ i a b, head[i]? = some a ∧ head[i + 1]? = some b ∧ 0 < hours_spent a b) :
    ∃ i a b, head[i]? = some a ∧ head[i + 1]? = some b ∧
      display_bottleneck head = [bottleneck_line a.name b.name (hours_spent a b)] ∧
      0 < hours_spent a b ∧
      (∀ j c d, head[j]? = some c → head[j + 1]? = some d →
        hours_spent c d ≤ hours_spent a b) ∧
      (∀ j c d, j < i → head[j]? = some c → head[j + 1]? = some d →
        hours_spent c d < hours_spent a b) := by
  cases head with
  | nil =>
      obtain ⟨i, a, b, ha, _, _⟩ := h
      simp at ha
  | cons current rest =>
      rcases display_bottleneck_loop_spec current rest ⟨0, none, none⟩ with
        ⟨hall, _⟩ | ⟨i, a, b, hia, hib, hres, hlt, hmax, hfirst⟩
      · obtain ⟨i, a, b, ha, hb, hpos⟩ := h
        have := hall i a b ha hb
        simp only at this
        omega
      · refine ⟨i, a, b, hia, hib, ?_, hlt, hmax, hfirst⟩
        simp [display_bottleneck, hres]

/-- In a chain whose hours all lie in 0..23 every consecutive difference of hours is
representable as an `int`. -/
theorem gaps_representable_of_day_hours (head : Chain)
    (hday : ∀ h ∈ head, 0 ≤ h.hour ∧ h.hour ≤ 23) (j : Nat) (c d : Hub)
    (hc : head[j]? = some c) (hd : head[j + 1]? = some d) : isInt (d.hour - c.hour) := by
  have h1 := hday c (List.getElem?_mem hc)
  have h2 := hday d (List.getElem?_mem hd)
  unfold isInt INT_MIN INT_MAX
  omega

/-- C10, as amended: for every chain in which the difference `hour(i+1) - hour(i)` of every
consecutive pair is representable as an `int` (as it is whenever the hours lie in 0..23),
and in which at least one consecutive pair has a positive gap `hour(i+1) - hour(i)`,
`display_bottleneck` prints exactly the line reporting the names of hub `i` and hub `i+1`
and their gap for the least `i` whose gap is greatest among all consecutive pairs, and that
gap is positive. -/
theorem display_bottleneck_reports_greatest_gap (head : Chain)
    (hrep : ∀ j c d, head[j]? = some c → head[j + 1]? = some d → isInt (d.hour - c.hour))
    (h : ∃ i a b, head[i]? = some a ∧ head[i + 1]? = some b ∧ 0 < b.hour - a.hour) :
    ∃ i a b, head[i]? = some a ∧ head[i + 1]? = some b ∧
      display_bottleneck head = [bottleneck_line a.name b.name (b.hour - a.hour)] ∧
      0 < b.hour - a.hour ∧
      (∀ j c d, head[j]? = some c → head[j + 1]? = some d →
        d.hour - c.hour ≤ b.hour - a.hour) ∧
      (∀ j c d, j < i → head[j]? = some c → head[j + 1]? = some d →
        d.hour - c.hour < b.hour - a.hour) := by
  have hs : ∀ j c d, head[j]? = some c → head[j + 1]? = some d →
      hours_spent c d = d.hour - c.hour :=
    fun j c d hc hd => hours_spent_eq_sub c d (hrep j c d hc hd)
  have h2 : ∃ i a b, head[i]? = some a ∧ head[i + 1]? = some b ∧ 0 < hours_spent a b := by
    obtain ⟨i, a, b, ha, hb, hpos⟩ := h
    exact ⟨i, a, b, ha, hb, by rw [hs i a b ha hb]; exact hpos⟩
  obtain ⟨i, a, b, ha, hb, hout, hpos, hmax, hfirst⟩ :=
    display_bottleneck_first_max_of_hours_spent head h2
  have hab := hs i a b ha hb
  refine ⟨i, a, b, ha, hb, by rw [hout, hab], by rw [← hab]; exact hpos, ?_, ?_⟩
  · intro j c d hc hd
    rw [← hab, ← hs j c d hc hd]
    exact hmax j c d hc hd
  · intro j c d hj hc hd
    rw [← hab, ← hs j c d hc hd]
    exact hfirst j c d hj hc hd

/-- C10, witness: hours 9, 14, 17, 22 have gaps 5, 3, 5; the first pair is reported. -/
theorem display_bottleneck_reports_greatest_gap_witness :
    (∀ j c d, tie_chain[j]? = some c → tie_chain[j + 1]? = some d → isInt (d.hour - c.hour)) ∧
      (∃ i a b, tie_chain[i]? = some a ∧ tie_chain[i + 1]? = some b ∧ 0 < b.hour - a.hour) ∧
      ∃ i a b, tie_chain[i]? = some a ∧ tie_chain[i + 1]? = some b ∧
        display_bottleneck tie_chain = [bottleneck_line a.name b.name (b.hour - a.hour)] ∧
        0 < b.hour - a.hour ∧
        (∀ j c d, tie_chain[j]? = some c → tie_chain[j + 1]? = some d →
          d.hour - c.hour ≤ b.hour - a.hour) ∧
        (∀ j c d, j < i → tie_chain[j]? = some c → tie_chain[j + 1]? = some d →
          d.hour - c.hour < b.hour - a.hour) :=
  ⟨gaps_representable_of_day_hours tie_chain (by decide),
    ⟨0, ⟨"Orlando".toList, 0, 9⟩, ⟨"Atlanta".toList, 400, 14⟩, by decide⟩,
    display_bottleneck_reports_greatest_gap tie_chain
      (gaps_representable_of_day_hours tie_chain (by decide))
      ⟨0, ⟨"Orlando".toList, 0, 9⟩, ⟨"Atlanta".toList, 400, 14⟩, by decide⟩⟩

/-- C10, counterexample: after `insert_at_head("A", 0, -1)` and
`insert_at_tail("B", 10, 2147483647)` the pair (A, B) has the positive gap
2147483647 - (-1) = 2147483648, which no `int` holds; `display_bottleneck` reports no pair
and prints "No bottleneck found.". -/
theorem display_bottleneck_gap_overflow :
    (insert_at_tail true (insert_at_head true [] "A".toList 0 (-1)).1
        "B".toList 10 2147483647).1 = rising_overflow_chain ∧
      (∃ i a b, rising_overflow_chain[i]? = some a ∧ rising_overflow_chain[i + 1]? = some b ∧
        0 < b.hour - a.hour) ∧
      display_bottleneck rising_overflow_chain = ["No bottleneck found.".toList] :=
  ⟨by decide, ⟨0, ⟨"A".toList, 0, -1⟩, ⟨"B".toList, 10, 2147483647⟩, by decide⟩, by decide⟩

/-- The unchecked locals `s` and the pointer locals `sp` describe the same state: same
`max_hours`, and each hub of `s` is the hub the pointer of `sp` points at (none for null). -/
theorem display_bottleneck_loop_checked_eq (current : Hub) (rest : Chain) (s : Scan)
    (sp : ScanPtr) (hm : s.max_hours = sp.max_hours)
    (hs : s.bottleneck_start = sp.bottleneck_start.head?)
    (he : s.bottleneck_end = sp.bottleneck_end.head?) :
    ∃ sp2, display_bottleneck_loop_checked (current :: rest) sp = some sp2 ∧
      (display_bottleneck_loop current rest s).max_hours = sp2.max_hours ∧
      (display_bottleneck_loop current rest s).bottleneck_start = sp2.bottleneck_start.head? ∧
      (display_bottleneck_loop current rest s).bottleneck_end = sp2.bottleneck_end.head? := by
  induction rest generalizing current s sp with
  | nil =>
      exact ⟨sp, by simp [display_bottleneck_loop_checked, read_next, is_empty], hm, hs, he⟩
  | cons nxt rest ih =>
      have hstep : display_bottleneck_loop_checked (current :: nxt :: rest) sp =
          display_bottleneck_loop_checked (nxt :: rest)
            (if hours_spent current nxt > sp.max_hours then
              ⟨hours_spent current nxt, current :: nxt :: rest, nxt :: rest⟩ else sp) := by
        simp [display_bottleneck_loop_checked, read_next, read_hour, is_empty, hours_spent]
      rw [hstep]
      simp only [display_bottleneck_loop]
      by_cases hgt : hours_spent current nxt > s.max_hours
      · have hgt2 : hours_spent current nxt > sp.max_hours := hm ▸ hgt
        rw [if_pos hgt, if_pos hgt2]
        exact ih nxt _ _ rfl rfl rfl
      · have hgt2 : ¬ hours_spent current nxt > sp.max_hours := hm ▸ hgt
        rw [if_neg hgt, if_neg hgt2]
        exact ih nxt s sp hm hs he

/-- No read of `display_bottleneck` is made through a null pointer, on any chain: the
checked function yields the lines of `display_bottleneck`. -/
theorem display_bottleneck_checked_eq (head : Chain) :
    display_bottleneck_checked head = some (display_bottleneck head) := by
  cases head with
  | nil => rfl
  | cons current rest =>
      obtain ⟨sp2, hrun, hm, hs, he⟩ :=
        display_bottleneck_loop_checked_eq current rest ⟨0, none, none⟩ ⟨0, [], []⟩ rfl rfl rfl
      simp only [display_bottleneck_checked, is_empty, List.isEmpty_cons, hrun, display_bottleneck]
      rw [hm, hs, he]
      rcases sp2 with ⟨m, st, en⟩
      cases st <;> cases en <;> simp [read_name, is_empty]

theorem bottleneck_line_ne_empty_report (start_name end_name : CStr) (hours : Int) :
    bottleneck_line start_name end_name hours ≠ "Delivery chain is empty.".toList := by
  intro h
  have h2 := congrArg List.head? h
  simp [bottleneck_line] at h2

theorem bottleneck_line_ne_none_report (start_name end_name : CStr) (hours : Int) :
    bottleneck_line start_name end_name hours ≠ "No bottleneck found.".toList := by
  intro h
  have h2 := congrArg List.head? h
  simp [bottleneck_line] at h2

/-- C11: on a chain of zero hubs or of one hub `display_bottleneck` reports no pair and no
gap: it prints the single line "Delivery chain is empty." (zero hubs) or "No bottleneck
found." (one hub), never a "Bottleneck found" line; and it reads no field through a null
pointer (the checked function yields these lines rather than `none`). -/
theorem display_bottleneck_short_chain (head : Chain) (h : head.length ≤ 1) :
    display_bottleneck_checked head = some (display_bottleneck head) ∧
      display_bottleneck head =
        (if head = [] then ["Delivery chain is empty.".toList]
          else ["No bottleneck found.".toList]) ∧
      ∀ start_name end_name hours,
        bottleneck_line start_name end_name hours ∉ display_bottleneck head := by
  have hout : display_bottleneck head =
      (if head = [] then ["Delivery chain is empty.".toList]
        else ["No bottleneck found.".toList]) := by
    match head, h with
    | [], _ => rfl
    | [x], _ => rfl
    | _ :: _ :: _, h => simp at h
  refine ⟨display_bottleneck_checked_eq head, hout, ?_⟩
  intro sn en g hmem
  rw [hout] at hmem
  by_cases hnil : head = []
  · rw [if_pos hnil, List.mem_singleton] at hmem
    exact bottleneck_line_ne_empty_report sn en g hmem
  · rw [if_neg hnil, List.mem_singleton] at hmem
    exact bottleneck_line_ne_none_report sn en g hmem

/-- C11, witness: the chain holding Orlando alone. -/
theorem display_bottleneck_short_chain_witness :
    one_hub_chain.length ≤ 1 ∧
      (display_bottleneck_checked one_hub_chain = some (display_bottleneck one_hub_chain) ∧
        display_bottleneck one_hub_chain =
          (if one_hub_chain = [] then ["Delivery chain is empty.".toList]
            else ["No bottleneck found.".toList]) ∧
        ∀ start_name end_name hours,
          bottleneck_line start_name end_name hours ∉ display_bottleneck one_hub_chain) :=
  ⟨by decide, display_bottleneck_short_chain one_hub_chain (by decide)⟩

/-- In terms of the values `hours_spent` the loop computes: when no consecutive pair has a
positive `hours_spent`, `display_bottleneck` prints no "Bottleneck found" line. -/
theorem display_bottleneck_of_no_positive_hours_spent (head : Chain)
    (h : ∀ j c d, head[j]? = some c → head[j + 1]? = some d → hours_spent c d ≤ 0) :
    display_bottleneck head =
        (if head = [] then ["Delivery chain is empty.".toList]
          else ["No bottleneck found.".toList]) ∧
      ∀ start_name end_name hours,
        bottleneck_line start_name end_name hours ∉ display_bottleneck head := by
  have hout : display_bottleneck head =
      (if head = [] then ["Delivery chain is empty.".toList]
        else ["No bottleneck found.".toList]) := by
    cases head with
    | nil => rfl
    | cons current rest =>
        rcases display_bottleneck_loop_spec current rest ⟨0, none, none⟩ with
          ⟨_, hres⟩ | ⟨i, a, b, hia, hib, _, hlt, _, _⟩
        · simp [display_bottleneck, hres]
        · have := h i a b hia hib
          simp only at hlt
          omega
  refine ⟨hout, ?_⟩
  intro sn en g hmem
  rw [hout] at hmem
  by_cases hnil : head = []
  · rw [if_pos hnil, List.mem_singleton] at hmem
    exact bottleneck_line_ne_empty_report sn en g hmem
  · rw [if_neg hnil, List.mem_singleton] at hmem
    exact bottleneck_line_ne_none_report sn en g hmem

/-- C12, as amended: for every chain in which the difference `hour(i+1) - hour(i)` of every
consecutive pair is representable as an `int` (as it is whenever the hours lie in 0..23) and
in which the hours are non-increasing along the whole traversal, `display_bottleneck`
reports no bottleneck, even when consecutive pairs exist: a non-empty chain prints exactly
"No bottleneck found.", the empty chain "Delivery chain is empty.", and no "Bottleneck
found" line is printed. -/
theorem display_bottleneck_non_increasing_hours (head : Chain)
    (hrep : ∀ j c d, head[j]? = some c → head[j + 1]? = some d → isInt (d.hour - c.hour))
    (h : ∀ j c d, head[j]? = some c → head[j + 1]? = some d → d.hour ≤ c.hour) :
    display_bottleneck head =
        (if head = [] then ["Delivery chain is empty.".toList]
          else ["No bottleneck found.".toList]) ∧
      ∀ start_name end_name hours,
        bottleneck_line start_name end_name hours ∉ display_bottleneck head := by
  apply display_bottleneck_of_no_positive_hours_spent
  intro j c d hc hd
  rw [hours_spent_eq_sub c d (hrep j c d hc hd)]
  have := h j c d hc hd
  omega

/-- The hours 17, 14, 14, 9 never increase from a hub to the next. -/
theorem falling_chain_hours (j : Nat) (c d : Hub) (hc : falling_chain[j]? = some c)
    (hd : falling_chain[j + 1]? = some d) : d.hour ≤ c.hour := by
  match j with
  | 0 | 1 | 2 =>
      simp [falling_chain] at hc hd
      subst hc; subst hd
      decide
  | j + 3 =>
      simp [falling_chain] at hd

/-- C12, witness: hours 17, 14, 14, 9 never increase, and three consecutive pairs exist. -/
theorem display_bottleneck_non_increasing_hours_witness :
    (∀ j c d, falling_chain[j]? = some c → falling_chain[j + 1]? = some d →
        isInt (d.hour - c.hour)) ∧
      (∀ j c d, falling_chain[j]? = some c → falling_chain[j + 1]? = some d →
        d.hour ≤ c.hour) ∧
      (display_bottleneck falling_chain =
          (if falling_chain = [] then ["Delivery chain is empty.".toList]
            else ["No bottleneck found.".toList]) ∧
        ∀ start_name end_name hours,
          bottleneck_line start_name end_name hours ∉ display_bottleneck falling_chain) :=
  ⟨gaps_representable_of_day_hours falling_chain (by decide), falling_chain_hours,
    display_bottleneck_non_increasing_hours falling_chain
      (gaps_representable_of_day_hours falling_chain (by decide)) falling_chain_hours⟩

/-- The hours 1, -2147483648 of `falling_overflow_chain` fall from the hub to the next. -/
theorem falling_overflow_chain_hours (j : Nat) (c d : Hub)
    (hc : falling_overflow_chain[j]? = some c) (hd : falling_overflow_chain[j + 1]? = some d) :
    d.hour ≤ c.hour := by
  match j with
  | 0 =>
      simp [falling_overflow_chain] at hc hd
      subst hc; subst hd
      decide
  | j + 1 =>
      simp [falling_overflow_chain] at hd

/-- C12, counterexample: after `insert_at_head("A", 0, 1)` and
`insert_at_tail("B", 10, -2147483648)` the hours fall from 1 to -2147483648, by 2147483649,
which no `int` holds; `display_bottleneck` reports the pair A to B with 2147483647 hours. -/
theorem display_bottleneck_falling_overflow :
    (insert_at_tail true (insert_at_head true [] "A".toList 0 1).1
        "B".toList 10 (-2147483648)).1 = falling_overflow_chain ∧
      (∀ j c d, falling_overflow_chain[j]? = some c → falling_overflow_chain[j + 1]? = some d →
        d.hour ≤ c.hour) ∧
      display_bottleneck falling_overflow_chain =
        ["Bottleneck found: A to B, Hours spent: 2147483647".toList] :=
  ⟨by decide, falling_overflow_chain_hours, by decide⟩

/-! ## Insertion, as specified -/

/-- C13, as amended: with the allocation succeeding, `insert_at_head` yields the chain whose
first hub has the given distance and hour and, as its name, the first 99 chars of the given
name (the given name itself when that has at most 99 chars), and whose remaining hubs are
the hubs of the previous chain in their previous order; on the empty chain it yields the
one-hub chain. -/
theorem insert_at_head_spec (head : Chain) (name : CStr) (distance hour : Int) :
    (insert_at_head true head name distance hour).1 = ⟨name.take 99, distance, hour⟩ :: head ∧
      (name.length ≤ 99 →
        (insert_at_head true head name distance hour).1 = ⟨name, distance, hour⟩ :: head) ∧
      (insert_at_head true [] name distance hour).1 = [⟨name.take 99, distance, hour⟩] := by
  refine ⟨insert_at_head_ok head name distance hour, fun hlen => ?_,
    insert_at_head_ok [] name distance hour⟩
  rw [insert_at_head_ok]
  simp [snprintf_s, MAX_NAME_LENGTH, List.take_of_length_le hlen]

/-- C13, witness: `insert_at_head("Miami", 380, 5)` on Orlando, Atlanta, Charlotte. -/
theorem insert_at_head_spec_witness :
    "Miami".toList.length ≤ 99 ∧
      (insert_at_head true demo_chain "Miami".toList 380 5).1 =
        ⟨"Miami".toList, 380, 5⟩ :: demo_chain :=
  ⟨by decide, (insert_at_head_spec demo_chain "Miami".toList 380 5).2.1 (by decide)⟩

/-- C13, counterexample: inserting a name of 102 chars at the head of the empty chain stores
a hub whose name is the first 99 chars, so the first hub does not have the given name. -/
theorem insert_at_head_long_name :
    (insert_at_head true [] long_name 0 9).1 = [⟨List.replicate 99 'a', 0, 9⟩] ∧
      (insert_at_head true [] long_name 0 9).1 ≠ [⟨long_name, 0, 9⟩] := by
  decide

/-- C14, as amended: with the allocation succeeding, `insert_at_tail` yields the previous
hubs in their previous order followed by one new last hub that has the given distance and
hour and, as its name, the first 99 chars of the given name (the given name itself when that
has at most 99 chars); on the empty chain the new hub becomes the head. -/
theorem insert_at_tail_spec (head : Chain) (name : CStr) (distance hour : Int) :
    (insert_at_tail true head name distance hour).1 =
        head ++ [⟨name.take 99, distance, hour⟩] ∧
      (name.length ≤ 99 →
        (insert_at_tail true head name distance hour).1 = head ++ [⟨name, distance, hour⟩]) ∧
      (insert_at_tail true [] name distance hour).1 = [⟨name.take 99, distance, hour⟩] := by
  refine ⟨insert_at_tail_ok head name distance hour, fun hlen => ?_,
    insert_at_tail_ok [] name distance hour⟩
  rw [insert_at_tail_ok]
  simp [snprintf_s, MAX_NAME_LENGTH, List.take_of_length_le hlen]

/-- C14, witness: `insert_at_tail("Richmond", 300, 22)` on Orlando, Atlanta, Charlotte. -/
theorem insert_at_tail_spec_witness :
    "Richmond".toList.length ≤ 99 ∧
      (insert_at_tail true demo_chain "Richmond".toList 300 22).1 =
        demo_chain ++ [⟨"Richmond".toList, 300, 22⟩] :=
  ⟨by decide, (insert_at_tail_spec demo_chain "Richmond".toList 300 22).2.1 (by decide)⟩

/-- C14, counterexample: appending a name of 102 chars to Orlando, Atlanta, Charlotte stores
a last hub whose name is the first 99 chars, so the new hub does not have the given name. -/
theorem insert_at_tail_long_name :
    (insert_at_tail true demo_chain long_name 120 20).1 =
        demo_chain ++ [⟨List.replicate 99 'a', 120, 20⟩] ∧
      (insert_at_tail true demo_chain long_name 120 20).1 ≠
        demo_chain ++ [⟨long_name, 120, 20⟩] := by
  decide

/-! ## The demonstration of `main` -/

/-- C15: the scenario of `main`. The three insertions build Orlando, Atlanta, Charlotte;
`print_chain` writes the three lines; `total_distance` is 750; `display_bottleneck` reports
Orlando to Atlanta with 5 hours; `search_hub("lanta")` returns the Atlanta hub (400, 14),
whose `next` is Charlotte; `remove_first_match("lanta")` leaves Orlando then Charlotte,
of `total_distance` 350. -/
theorem demo_scenario :
    (insert_at_tail true
        (insert_at_tail true (insert_at_head true [] "Orlando".toList 0 9).1
          "Atlanta".toList 400 14).1
        "Charlotte".toList 350 17).1 = demo_chain ∧
      print_chain demo_chain =
        ["Orlando - 0 km, 9h".toList, "Atlanta - 400 km, 14h".toList,
          "Charlotte - 350 km, 17h".toList] ∧
      total_distance demo_chain = 750 ∧
      display_bottleneck demo_chain =
        ["Bottleneck found: Orlando to Atlanta, Hours spent: 5".toList] ∧
      search_hub demo_chain "lanta".toList =
        ⟨"Atlanta".toList, 400, 14, [⟨"Charlotte".toList, 350, 17⟩]⟩ ∧
      remove_first_match demo_chain "lanta".toList =
        ([⟨"Orlando".toList, 0, 9⟩, ⟨"Charlotte".toList, 350, 17⟩], []) ∧
      print_chain (remove_first_match demo_chain "lanta".toList).1 =
        ["Orlando - 0 km, 9h".toList, "Charlotte - 350 km, 17h".toList] ∧
      total_distance (remove_first_match demo_chain "lanta".toList).1 = 350 := by
  decide

/-! ## `deleteList` -/

theorem heap_read_heap_free (m : Heap) (a b : Addr) :
    heap_read (heap_free m a) b = if b = a then none else heap_read m b := by
  unfold heap_read heap_free
  rw [List.getElem?_set]
  by_cases h : a = b
  · subst h
    by_cases h2 : a < m.length <;> simp [h2]
  · have : ¬ b = a := fun h3 => h h3.symm
    simp [h, this]

theorem live_heap_free {m : Heap} {a : Addr} {node : Node} (h : heap_read m a = some node) :
    live (heap_free m a) + 1 = live m := by
  induction m generalizing a with
  | nil => simp [heap_read] at h
  | cons x xs ih =>
      cases a with
      | zero =>
          simp [heap_read] at h
          subst h
          simp [heap_free, live, List.countP_cons]
      | succ a =>
          have h2 : heap_read xs a = some node := by simpa [heap_read] using h
          have h3 := ih h2
          simp only [heap_free, live, List.set_cons_succ, List.countP_cons] at h3 ⊢
          omega

theorem live_le_length (m : Heap) : live m ≤ m.length := List.countP_le_length _

theorem deleteList_loop_ne_out_of_fuel (fuel : Nat) (m : Heap) (head : Ptr)
    (h : live m < fuel) : deleteList_loop fuel m head ≠ .out_of_fuel := by
  induction fuel generalizing m head with
  | zero => omega
  | succ fuel ih =>
      cases head with
      | none => simp [deleteList_loop]
      | some temp =>
          cases hr : heap_read m temp with
          | none => simp [deleteList_loop, hr]
          | some node =>
              simp only [deleteList_loop, hr]
              apply ih
              have := live_heap_free hr
              omega

/-- The loop of `deleteList` ends on every heap and pointer within the steps given. -/
theorem deleteList_ne_out_of_fuel (m : Heap) (head : Ptr) :
    deleteList m head ≠ .out_of_fuel :=
  deleteList_loop_ne_out_of_fuel _ m head (Nat.lt_succ_of_le (live_le_length m))

theorem linked_cons_iff (m : Heap) (p : Ptr) (a : Addr) (addrs : List Addr) (h : Hub)
    (t : Chain) :
    linked m p (a :: addrs) (h :: t) = true ↔
      p = some a ∧ ∃ nxt, heap_read m a = some ⟨h.name, h.distance, h.hour, nxt⟩ ∧
        linked m nxt addrs t = true := by
  cases p with
  | none => simp [linked]
  | some q =>
      cases hr : heap_read m a with
      | none => simp [linked, hr]
      | some node =>
          rcases node with ⟨n, d, hh, nx⟩
          simp only [linked, hr, Bool.and_eq_true, beq_iff_eq, Option.some.injEq,
            Node.mk.injEq]
          constructor
          · rintro ⟨⟨⟨⟨h1, h2⟩, h3⟩, h4⟩, h5⟩
            exact ⟨h1, nx, ⟨h2, h3, h4, rfl⟩, h5⟩
          · rintro ⟨h1, nxt, ⟨h2, h3, h4, h5⟩, h6⟩
            subst h5
            exact ⟨⟨⟨⟨h1, h2⟩, h3⟩, h4⟩, h6⟩

theorem linked_nil_addrs (m : Heap) (p : Ptr) (chain : Chain)
    (h : linked m p [] chain = true) : p = none ∧ chain = [] := by
  cases p <;> cases chain <;> simp [linked] at h ⊢

theorem linked_cons_addrs (m : Heap) (p : Ptr) (a : Addr) (addrs : List Addr) (chain : Chain)
    (h : linked m p (a :: addrs) chain = true) : ∃ x t, chain = x :: t := by
  cases chain with
  | nil => cases p <;> simp [linked] at h
  | cons x t => exact ⟨x, t, rfl⟩

/-- A pointer heads at most one chain: the number of hubs is determined. -/
theorem linked_length_eq (m : Heap) (p : Ptr) (as1 as2 : List Addr) (c1 c2 : Chain)
    (h1 : linked m p as1 c1 = true) (h2 : linked m p as2 c2 = true) :
    as1.length = as2.length := by
  induction as1 generalizing p as2 c1 c2 with
  | nil =>
      obtain ⟨hp, _⟩ := linked_nil_addrs m p c1 h1
      subst hp
      cases as2 with
      | nil => rfl
      | cons b r2 =>
          obtain ⟨x, t, hc⟩ := linked_cons_addrs m none b r2 c2 h2
          subst hc
          simp [linked] at h2
  | cons a r ih =>
      obtain ⟨x, t, hc⟩ := linked_cons_addrs m p a r c1 h1
      subst hc
      obtain ⟨hp, nxt, hr, hl⟩ := (linked_cons_iff m p a r x t).mp h1
      cases as2 with
      | nil =>
          obtain ⟨hp2, _⟩ := linked_nil_addrs m p c2 h2
          rw [hp] at hp2
          simp at hp2
      | cons b r2 =>
          obtain ⟨x2, t2, hc2⟩ := linked_cons_addrs m p b r2 c2 h2
          subst hc2
          obtain ⟨hp2, nxt2, hr2, hl2⟩ := (linked_cons_iff m p b r2 x2 t2).mp h2
          rw [hp] at hp2
          simp only [Option.some.injEq] at hp2
          subst hp2
          rw [hr] at hr2
          simp only [Option.some.injEq, Node.mk.injEq] at hr2
          obtain ⟨_, _, _, hn⟩ := hr2
          subst hn
          simp [ih nxt r2 t t2 hl hl2]

/-- Every hub of a chain heads a chain of its own, no longer than the whole. -/
theorem linked_of_mem (m : Heap) (p : Ptr) (addrs : List Addr) (chain : Chain) (a : Addr)
    (h : linked m p addrs chain = true) (ha : a ∈ addrs) :
    ∃ as2 c2, linked m (some a) as2 c2 = true ∧ as2.length ≤ addrs.length := by
  induction addrs generalizing p chain with
  | nil => simp at ha
  | cons b r ih =>
      obtain ⟨x, t, hc⟩ := linked_cons_addrs m p b r chain h
      subst hc
      obtain ⟨hp, nxt, hr, hl⟩ := (linked_cons_iff m p b r x t).mp h
      rcases List.mem_cons.mp ha with hab | har
      · subst hab
        exact ⟨a :: r, x :: t, hp ▸ h, le_refl _⟩
      · obtain ⟨as2, c2, hl2, hlen⟩ := ih nxt t hl har
        exact ⟨as2, c2, hl2, by simp; omega⟩

/-- A chain is acyclic: its first address does not occur again. -/
theorem linked_head_not_mem (m : Heap) (p : Ptr) (a : Addr) (addrs : List Addr) (x : Hub)
    (t : Chain) (h : linked m p (a :: addrs) (x :: t) = true) : a ∉ addrs := by
  intro ha
  obtain ⟨hp, nxt, hr, hl⟩ := (linked_cons_iff m p a addrs x t).mp h
  obtain ⟨as2, c2, hl2, hlen⟩ := linked_of_mem m nxt addrs t a hl ha
  have := linked_length_eq m (some a) (a :: addrs) as2 (x :: t) c2 (hp ▸ h) hl2
  simp at this
  omega

/-- Freeing a hub outside a chain leaves the chain linked. -/
theorem linked_heap_free (m : Heap) (p : Ptr) (addrs : List Addr) (chain : Chain) (a : Addr)
    (h : linked m p addrs chain = true) (ha : a ∉ addrs) :
    linked (heap_free m a) p addrs chain = true := by
  induction addrs generalizing p chain with
  | nil =>
      obtain ⟨hp, hc⟩ := linked_nil_addrs m p chain h
      subst hp; subst hc
      simp [linked]
  | cons b r ih =>
      obtain ⟨x, t, hc⟩ := linked_cons_addrs m p b r chain h
      subst hc
      obtain ⟨hp, nxt, hr, hl⟩ := (linked_cons_iff m p b r x t).mp h
      have hba : ¬ b = a := fun hba => ha (by simp [hba])
      have har : a ∉ r := fun har => ha (by simp [har])
      refine (linked_cons_iff _ p b r x t).mpr ⟨hp, nxt, ?_, ih nxt t hl har⟩
      rw [heap_read_heap_free, if_neg hba, hr]

/-- On a linked chain the loop of `deleteList` frees the hubs one after the other. -/
theorem deleteList_loop_linked (fuel : Nat) (m : Heap) (p : Ptr) (addrs : List Addr)
    (chain : Chain) (h : linked m p addrs chain = true) (hf : live m < fuel) :
    deleteList_loop fuel m p = .done (addrs.foldl heap_free m) := by
  induction addrs generalizing fuel m p chain with
  | nil =>
      obtain ⟨hp, _⟩ := linked_nil_addrs m p chain h
      subst hp
      cases fuel <;> simp [deleteList_loop]
  | cons a r ih =>
      obtain ⟨x, t, hc⟩ := linked_cons_addrs m p a r chain h
      subst hc
      obtain ⟨hp, nxt, hr, hl⟩ := (linked_cons_iff m p a r x t).mp h
      subst hp
      have hnot := linked_head_not_mem m (some a) a r x t h
      cases fuel with
      | zero => omega
      | succ fuel =>
          simp only [deleteList_loop, hr, List.foldl_cons]
          apply ih fuel (heap_free m a) nxt t (linked_heap_free m nxt r t a hl hnot)
          have := live_heap_free hr
          omega

theorem heap_read_foldl_free (addrs : List Addr) (m : Heap) (b : Addr) :
    heap_read (addrs.foldl heap_free m) b = if b ∈ addrs then none else heap_read m b := by
  induction addrs generalizing m with
  | nil => simp
  | cons a r ih =>
      rw [List.foldl_cons, ih, heap_read_heap_free]
      by_cases hb : b ∈ r
      · simp [hb]
      · by_cases hba : b = a <;> simp [hb, hba]

/-- C16, as amended: when `head` heads a chain in the heap, `deleteList` ends normally and
frees every hub of the chain and no other hub. It does not change the caller's pointer; the
teardown `main` performs, `deleteList(chain); chain = NULL;`, leaves the chain empty, and
performing that teardown a second time right afterwards changes nothing and leaves the
chain empty again. On an empty chain `deleteList` changes nothing. -/
theorem deleteList_releases_chain (m : Heap) (head : Ptr) (addrs : List Addr) (chain : Chain)
    (h : linked m head addrs chain = true) :
    ∃ m2, deleteList m head = .done m2 ∧
      (∀ a ∈ addrs, heap_read m2 a = none) ∧
      (∀ a, a ∉ addrs → heap_read m2 a = heap_read m a) ∧
      teardown m head = .done (m2, none) ∧
      teardown m2 none = .done (m2, none) ∧
      ∀ m3 : Heap, deleteList m3 none = .done m3 ∧ teardown m3 none = .done (m3, none) := by
  have hd : deleteList m head = .done (addrs.foldl heap_free m) :=
    deleteList_loop_linked _ m head addrs chain h (Nat.lt_succ_of_le (live_le_length m))
  have hnull : ∀ m3 : Heap, deleteList m3 none = .done m3 ∧
      teardown m3 none = .done (m3, none) := by
    intro m3
    simp [teardown, deleteList, deleteList_loop]
  refine ⟨addrs.foldl heap_free m, hd, ?_, ?_, ?_, (hnull _).2, hnull⟩
  · intro a ha
    rw [heap_read_foldl_free, if_pos ha]
  · intro a ha
    rw [heap_read_foldl_free, if_neg ha]
  · simp [teardown, hd]

/-- C16, witness: Orlando, Atlanta, Charlotte stored at addresses 2, 0, 3. -/
theorem deleteList_releases_chain_witness :
    linked demo_heap (some 2) [2, 0, 3] demo_chain = true ∧
      ∃ m2, deleteList demo_heap (some 2) = .done m2 ∧
        (∀ a ∈ [2, 0, 3], heap_read m2 a = none) ∧
        (∀ a, a ∉ [2, 0, 3] → heap_read m2 a = heap_read demo_heap a) ∧
        teardown demo_heap (some 2) = .done (m2, none) ∧
        teardown m2 none = .done (m2, none) ∧
        ∀ m3 : Heap, deleteList m3 none = .done m3 ∧ teardown m3 none = .done (m3, none) :=
  ⟨by decide, deleteList_releases_chain demo_heap (some 2) [2, 0, 3] demo_chain (by decide)⟩

/-- C16, counterexample: with the single hub Orlando at address 0, `deleteList(chain)` frees
it; `chain`, passed by value, still holds address 0, and `deleteList(chain)` called again
right afterwards reads `head->next` of the freed hub. -/
theorem deleteList_twice_faults :
    linked one_hub_heap (some 0) [0] one_hub_chain = true ∧
      deleteList one_hub_heap (some 0) = .done [none] ∧
      deleteList [none] (some 0) = .fault := by
  decide

/-! ## Line format -/

theorem fmt_d_eq_toString (n : Int) : fmt_d n = (toString n).toList := by
  cases n <;> rfl

/-- C17: `print_chain` writes one line per hub, in head-to-tail order, the line of a hub
being its name, " - ", the decimal distance, " km, ", the decimal hour and "h"; for the
empty chain it writes no line. It only reads the chain: its result is the lines alone. -/
theorem print_chain_lines (head : Chain) :
    print_chain head =
        head.map (fun h =>
          (String.mk h.name ++ " - " ++ toString h.distance ++ " km, " ++ toString h.hour ++
            "h").toList) ∧
      (print_chain head).length = head.length ∧ print_chain [] = [] := by
  have hmap : print_chain head =
      head.map (fun h =>
        (String.mk h.name ++ " - " ++ toString h.distance ++ " km, " ++ toString h.hour ++
          "h").toList) := by
    induction head with
    | nil => rfl
    | cons current next ih =>
        simp only [print_chain, List.map_cons, ih, hub_line, fmt_d_eq_toString]
        simp [String.toList]
  refine ⟨hmap, ?_, rfl⟩
  rw [hmap, List.length_map]

/-! ## Stored names -/

theorem remove_first_match_subset (head : Chain) (keyword : CStr) (x : Hub)
    (hx : x ∈ (remove_first_match head keyword).1) : x ∈ head := by
  by_cases hno : ∀ h ∈ head, ¬ contains h.name keyword
  · rw [remove_first_match_of_no_match head keyword hno] at hx
    exact hx
  · have hex : ∃ hub ∈ head, contains hub.name keyword := by
      by_contra hcon
      exact hno (fun h hm hc => hcon ⟨h, hm, hc⟩)
    obtain ⟨pre, cur, post, he, hpre, hcur⟩ := exists_first_match head keyword hex
    rw [he, remove_first_match_at_first_match pre cur post keyword hpre hcur] at hx
    rw [he]
    simp only [List.mem_append, List.mem_cons] at hx ⊢
    rcases hx with h1 | h1
    · exact Or.inl h1
    · exact Or.inr (Or.inr h1)

theorem snprintf_s_length (name : CStr) : (snprintf_s MAX_NAME_LENGTH name).length ≤ 99 := by
  simp [snprintf_s, MAX_NAME_LENGTH]

theorem apply_chain_call_names (head : Chain) (c : ChainCall)
    (h : ∀ x ∈ head, x.name.length ≤ 99) : ∀ x ∈ apply_chain_call head c, x.name.length ≤ 99 := by
  intro x hx
  cases c with
  | insert_head ok n d hr =>
      cases ok with
      | false => exact h x (by simpa [apply_chain_call, insert_at_head] using hx)
      | true =>
          simp only [apply_chain_call, insert_at_head_ok, List.mem_cons] at hx
          rcases hx with hx | hx
          · rw [hx]; exact snprintf_s_length n
          · exact h x hx
  | insert_tail ok n d hr =>
      cases ok with
      | false => exact h x (by simpa [apply_chain_call, insert_at_tail] using hx)
      | true =>
          simp only [apply_chain_call, insert_at_tail_ok, List.mem_append,
            List.mem_singleton] at hx
          rcases hx with hx | hx
          · exact h x hx
          · rw [hx]; exact snprintf_s_length n
  | remove k => exact h x (remove_first_match_subset head k x hx)

theorem foldl_chain_calls_names (calls : List ChainCall) (head : Chain)
    (h : ∀ x ∈ head, x.name.length ≤ 99) :
    ∀ x ∈ calls.foldl apply_chain_call head, x.name.length ≤ 99 := by
  induction calls generalizing head with
  | nil => exact h
  | cons c calls ih => exact ih _ (apply_chain_call_names head c h)

theorem remove_first_match_cons_of_not_contains (cur : Hub) (head : Chain) (keyword : CStr)
    (hcur : ¬ contains cur.name keyword) :
    (remove_first_match (cur :: head) keyword).1 = cur :: (remove_first_match head keyword).1 := by
  by_cases hno : ∀ h ∈ head, ¬ contains h.name keyword
  · have hall : ∀ h ∈ cur :: head, ¬ contains h.name keyword := by
      intro h hm
      rcases List.mem_cons.mp hm with heq | hin
      · exact heq ▸ hcur
      · exact hno h hin
    rw [remove_first_match_of_no_match _ keyword hall,
      remove_first_match_of_no_match head keyword hno]
  · have hex : ∃ hub ∈ head, contains hub.name keyword := by
      by_contra hcon
      exact hno (fun h hm hc => hcon ⟨h, hm, hc⟩)
    obtain ⟨pre, x, post, he, hpre, hx⟩ := exists_first_match head keyword hex
    have hpre2 : ∀ p ∈ cur :: pre, ¬ contains p.name keyword := by
      intro p hm
      rcases List.mem_cons.mp hm with heq | hin
      · exact heq ▸ hcur
      · exact hpre p hin
    have h1 := remove_first_match_at_first_match (cur :: pre) x post keyword hpre2 hx
    have h2 := remove_first_match_at_first_match pre x post keyword hpre hx
    rw [he, h2]
    rw [List.cons_append] at h1
    rw [h1]
    rfl

/-- C18: with the allocation succeeding, `insert_at_head` and `insert_at_tail` store the
first 99 chars of the given name, which is the given name when that has at most 99 chars;
so every hub of every chain built from the empty chain by insertions (failed ones too) and
removals has a name of at most 99 chars; and `search_hub` and `remove_first_match` test the
stored name: on the chain just extended at the head by a hub of the given name, they take
the new hub exactly when the first 99 chars of the name contain the keyword, and otherwise
go on to the rest of the chain. -/
theorem stored_name_truncated (head : Chain) (name keyword : CStr) (distance hour : Int)
    (calls : List ChainCall) :
    (insert_at_head true head name distance hour).1 = ⟨name.take 99, distance, hour⟩ :: head ∧
      (insert_at_tail true head name distance hour).1 =
        head ++ [⟨name.take 99, distance, hour⟩] ∧
      (name.length ≤ 99 → name.take 99 = name) ∧
      (99 < name.length → (name.take 99).length = 99) ∧
      (∀ h ∈ run_chain_calls calls, h.name.length ≤ 99) ∧
      search_hub (insert_at_head true head name distance hour).1 keyword =
        (if contains (name.take 99) keyword then ⟨name.take 99, distance, hour, head⟩
          else search_hub head keyword) ∧
      (remove_first_match (insert_at_head true head name distance hour).1 keyword).1 =
        (if contains (name.take 99) keyword then head
          else ⟨name.take 99, distance, hour⟩ :: (remove_first_match head keyword).1) := by
  have hh : (insert_at_head true head name distance hour).1 =
      ⟨name.take 99, distance, hour⟩ :: head := insert_at_head_ok head name distance hour
  refine ⟨hh, insert_at_tail_ok head name distance hour, List.take_of_length_le, ?_, ?_, ?_, ?_⟩
  · intro hlen
    rw [List.length_take]
    omega
  · exact foldl_chain_calls_names calls [] (by simp)
  · rw [hh]
    by_cases hc : contains (name.take 99) keyword
    · rw [if_pos hc, search_hub_cons_of_contains _ head keyword hc]
      rfl
    · rw [if_neg hc]
      exact search_hub_skip [⟨name.take 99, distance, hour⟩] head keyword
        (by intro p hp; rw [List.mem_singleton] at hp; rw [hp]; exact hc)
  · rw [hh]
    by_cases hc : contains (name.take 99) keyword
    · rw [if_pos hc]
      have := remove_first_match_at_first_match [] ⟨name.take 99, distance, hour⟩ head keyword
        (by simp) hc
      simpa using congrArg Prod.fst this
    · rw [if_neg hc]
      exact remove_first_match_cons_of_not_contains _ head keyword hc

theorem long_name_length : long_name.length = 102 := by
  rw [long_name, List.length_append, List.length_replicate]
  rfl

/-- C18, witness: "Orlando" is stored whole; of the 102-char name that ends in "XYZ" the
first 99 chars are stored, and the keyword "XYZ", which the given name contains, is neither
found nor removed. -/
theorem stored_name_truncated_witness :
    ("Orlando".toList.length ≤ 99 ∧ List.take 99 "Orlando".toList = "Orlando".toList) ∧
      (99 < long_name.length ∧ (List.take 99 long_name).length = 99) ∧
      contains long_name "XYZ".toList ∧
      search_hub (insert_at_head true [] long_name 0 9).1 "XYZ".toList = not_found ∧
      (remove_first_match (insert_at_head true [] long_name 0 9).1 "XYZ".toList).1 =
        [⟨List.replicate 99 'a', 0, 9⟩] :=
  ⟨⟨by decide, (stored_name_truncated [] "Orlando".toList [] 0 9 []).2.2.1 (by decide)⟩,
    ⟨by rw [long_name_length]; decide, (stored_name_truncated [] long_name [] 0 9 []).2.2.2.1
      (by rw [long_name_length]; decide)⟩,
    ⟨List.replicate 99 'a', [], List.append_nil _⟩, by decide, by decide⟩

/-! ## The empty keyword -/

/-- C19: the empty keyword is contained in every name, so on every non-empty chain
`search_hub("")` returns the head hub and `remove_first_match("")` removes the head hub,
leaving the chain after it, whatever the hubs are named. -/
theorem empty_keyword_takes_head (current : Hub) (next : Chain) :
    contains current.name [] ∧
      search_hub (current :: next) [] = ⟨current.name, current.distance, current.hour, next⟩ ∧
      remove_first_match (current :: next) [] = (next, []) := by
  have hc : contains current.name [] := List.nil_infix
  refine ⟨hc, search_hub_cons_of_contains current next [] hc, ?_⟩
  simpa using remove_first_match_at_first_match [] current next [] (by simp) hc

/-! ## Removal, counted -/

theorem chain_distances_append (a b : Chain) :
    chain_distances (a ++ b) = chain_distances a + chain_distances b := by
  simp [chain_distances]

/-- C20: when some hub's name contains the keyword and neither total overflows (the sums of
the distances before and after the removal are representable as `int`),
`remove_first_match` leaves one hub less, and `total_distance` afterwards is the previous
`total_distance` minus the distance of the hub `search_hub` returned before the removal. -/
theorem remove_first_match_counts (head : Chain) (keyword : CStr)
    (h : ∃ hub ∈ head, contains hub.name keyword)
    (hbefore : isInt (chain_distances head))
    (hafter : isInt (chain_distances (remove_first_match head keyword).1)) :
    (remove_first_match head keyword).1.length + 1 = head.length ∧
      total_distance (remove_first_match head keyword).1 =
        total_distance head - (search_hub head keyword).distance := by
  obtain ⟨pre, cur, post, he, hpre, hcur⟩ := exists_first_match head keyword h
  have hrm : (remove_first_match head keyword).1 = pre ++ post := by
    rw [he, remove_first_match_at_first_match pre cur post keyword hpre hcur]
  have hs : (search_hub head keyword).distance = cur.distance := by
    rw [he, search_hub_at_first_match pre cur post keyword hpre hcur]
    rfl
  rw [total_distance_eq_wrap, total_distance_eq_wrap, wrapInt_of_isInt hafter,
    wrapInt_of_isInt hbefore, hs, hrm]
  constructor
  · rw [he]
    simp
    omega
  · rw [he, chain_distances_append, chain_distances_append]
    simp only [chain_distances, List.map_cons, List.sum_cons]
    ring

/-- C20, witness: removing "lanta" from Orlando, Atlanta, Charlotte; 750 - 400 = 350. -/
theorem remove_first_match_counts_witness :
    (∃ hub ∈ demo_chain, contains hub.name "lanta".toList) ∧
      isInt (chain_distances demo_chain) ∧
      isInt (chain_distances (remove_first_match demo_chain "lanta".toList).1) ∧
      ((remove_first_match demo_chain "lanta".toList).1.length + 1 = demo_chain.length ∧
        total_distance (remove_first_match demo_chain "lanta".toList).1 =
          total_distance demo_chain - (search_hub demo_chain "lanta".toList).distance) :=
  ⟨by decide, by decide, by decide,
    remove_first_match_counts demo_chain "lanta".toList (by decide) (by decide) (by decide)⟩

end ParcelTrack
